import Mathlib

set_option maxRecDepth 10000

/-
  Verification development for the spell-checker module
  (src/components/SpellChecker.js).

  Strings are modelled as `List Char`; the JavaScript per-character case
  conversions (`toLowerCase` / `toUpperCase`) are modelled on the ASCII
  range, which is the range the algorithm manipulates (candidate letters
  are only `a`-`z`).  JavaScript `Set` objects are modelled as lists with
  first-insertion order and deduplication (`insertOnce`), matching the
  iteration order guaranteed for JS sets.
-/

namespace SpellChecker

/-- ASCII model of JavaScript's per-character `toLowerCase`. -/
def toLowerChar (c : Char) : Char :=
  if 65 ≤ c.toNat ∧ c.toNat ≤ 90 then Char.ofNat (c.toNat + 32) else c

/-- ASCII model of JavaScript's per-character `toUpperCase`. -/
def toUpperChar (c : Char) : Char :=
  if 97 ≤ c.toNat ∧ c.toNat ≤ 122 then Char.ofNat (c.toNat - 32) else c

/-- The candidate alphabet string `"abcdefghijklmnopqrstuvwxyz"` of
`getCorrection` (SpellChecker.js line 52). -/
def alphabet : List Char := "abcdefghijklmnopqrstuvwxyz".toList

/-- `Set.add` of a JavaScript `Set`: appends an element unless it is
already present, preserving first-insertion iteration order. -/
def insertOnce (s : List (List Char)) (c : List Char) : List (List Char) :=
  if c ∈ s then s else s ++ [c]

/-- Inner scan of the run-length encoding loop of `repeatVariants`
(SpellChecker.js lines 114-122): `c` is the character of the current run,
`n` the number of its occurrences seen so far. -/
def runsAux (c : Char) (n : Nat) : List Char → List (Char × Nat)
  | [] => [(c, n)]
  | d :: rest => if d = c then runsAux c (n + 1) rest else (c, n) :: runsAux d 1 rest

/-- The `runs` list computed by `repeatVariants` (lines 114-122): the
maximal runs of the word, as (character, length) pairs. -/
def runsFrom : List Char → List (Char × Nat)
  | [] => []
  | c :: rest => runsAux c 1 rest

/-- The recursive `backtrack` of `repeatVariants` (lines 126-140), emitting
completed variants in depth-first order: runs of length 1 are copied, longer
runs contribute the character once, then twice. -/
def backtrack : List (Char × Nat) → List Char → List (List Char)
  | [], acc => [acc]
  | (c, len) :: rest, acc =>
    if len = 1 then backtrack rest (acc ++ [c])
    else backtrack rest (acc ++ [c]) ++ backtrack rest (acc ++ [c, c])

/-- `repeatVariants` (SpellChecker.js lines 113-143): run-collapse
variants, as the `variants` set in insertion order. -/
def repeatVariants (word : List Char) : List (List Char) :=
  (backtrack (runsFrom word) []).foldl insertOnce []

/-- Single-deletion pass of `getCorrection` (lines 47-49):
`lower.slice(0, i) + lower.slice(i + 1)` for each `i`. -/
def delCandidates (lower : List Char) : List (List Char) :=
  (List.range lower.length).map (fun i => lower.take i ++ lower.drop (i + 1))

/-- Single-insertion pass of `getCorrection` (lines 52-57):
`lower.slice(0, i) + ch + lower.slice(i)` for each `i` and alphabet letter. -/
def insCandidates (lower : List Char) : List (List Char) :=
  (List.range (lower.length + 1)).flatMap
    (fun i => alphabet.map (fun ch => lower.take i ++ ch :: lower.drop i))

/-- Single-substitution pass of `getCorrection` (lines 60-64): replace
position `i` by each alphabet letter different from `lower[i]`. -/
def subCandidates (lower : List Char) : List (List Char) :=
  (List.range lower.length).flatMap
    (fun i =>
      (alphabet.filter (fun ch => !(lower[i]? = some ch : Bool))).map
        (fun ch => lower.take i ++ ch :: lower.drop (i + 1)))

/-- The `candidates` set of `getCorrection` (lines 41-64): the four
generation passes inserted in program order into one deduplicated set. -/
def candidatesFor (lower : List Char) : List (List Char) :=
  (repeatVariants lower ++ delCandidates lower ++ insCandidates lower
      ++ subCandidates lower).foldl insertOnce []

/-- One row of the `levenshtein` dynamic-programming table (lines 99-108),
as a function of the column index: `dpRow a b i prev j` is the cell
`dp[i+1][j]`, computed from the previous row `prev = dp[i][.]` and the
cells of the current row to its left, exactly as the inner `for` loop
fills it. -/
def dpRow (a b : List Char) (i : Nat) (prev : Nat → Nat) : Nat → Nat
  | 0 => i + 1
  | j + 1 =>
    min (prev (j + 1) + 1)
      (min (dpRow a b i prev j + 1)
        (prev j + (if a[i]? = b[j]? then 0 else 1)))

/-- The full `levenshtein` table (lines 93-108) as a function:
`dpFun a b i j` is `dp[i][j]`.  Row 0 is `0..len(b)`, column 0 is
`0..len(a)`, and every other cell is the three-way minimum of the JS
recurrence (delete, insert, substitute-or-match). -/
def dpFun (a b : List Char) : Nat → Nat → Nat
  | 0 => fun j => j
  | i + 1 => dpRow a b i (dpFun a b i)

/-- `levenshtein(a, b)` (SpellChecker.js lines 92-110): the bottom-right
cell `dp[a.length][b.length]` of the dynamic-programming table. -/
def levenshtein (a b : List Char) : Nat := dpFun a b a.length b.length

/-- `preserveCase` (SpellChecker.js lines 146-155). -/
def preserveCase (original corrected : List Char) : List Char :=
  if corrected = [] then original
  else if original.map toUpperChar = original then corrected.map toUpperChar
  else
    match original with
    | [] => corrected
    | o :: _ =>
      if toUpperChar o = o then
        match corrected with
        | [] => corrected
        | c :: cs => toUpperChar c :: cs
      else corrected

/-- The best-hit selection loop of `getCorrection` (lines 74-84):
`best`/`bestScore` start as `null`/`Infinity` (modelled by `none`), and a
hit replaces the current best exactly when its distance is strictly
smaller. -/
def bestFold (lower : List Char) (hits : List (List Char)) :
    Option (List Char × Nat) :=
  hits.foldl
    (fun st h =>
      match st with
      | none => some (h, levenshtein lower h)
      | some (b, s) =>
        if levenshtein lower h < s then some (h, levenshtein lower h)
        else some (b, s))
    none

/-- The `best` value handed to `preserveCase` on line 85 (a `null` best
would behave as the empty string there). -/
def chooseBest (lower : List Char) (hits : List (List Char)) : List Char :=
  (bestFold lower hits).elim [] Prod.fst

/-- The `hits` array of `getCorrection` (lines 67-71): candidates that are
non-empty and accepted by the oracle, in candidate-set iteration order. -/
def hitsGen (gen : List Char → List (List Char)) (lower : List Char)
    (isWord : List Char → Bool) : List (List Char) :=
  (gen lower).filter (fun c => !c.isEmpty && isWord c)

/-- `hits` for the actual candidate generator. -/
def hitsFor (lower : List Char) (isWord : List Char → Bool) : List (List Char) :=
  hitsGen candidatesFor lower isWord

/-- `getCorrection` (SpellChecker.js lines 21-89) with the candidate
generator abstracted, so that the early-exit path can be shown not to
depend on it. -/
def getCorrectionGen (gen : List Char → List (List Char)) (rawWord : List Char)
    (isWord : List Char → Bool) : List Char :=
  if rawWord = [] then rawWord
  else if isWord (rawWord.map toLowerChar) then rawWord
  else if (hitsGen gen (rawWord.map toLowerChar) isWord).isEmpty then rawWord
  else
    preserveCase rawWord
      (chooseBest (rawWord.map toLowerChar)
        (hitsGen gen (rawWord.map toLowerChar) isWord))

/-- `getCorrection` with the actual candidate generator, for a supplied
word predicate (the pure core of the function). -/
def getCorrection (rawWord : List Char) (isWord : List Char → Bool) : List Char :=
  getCorrectionGen candidatesFor rawWord isWord

/-- The module-level mutable state of SpellChecker.js: the lazily loaded
`__wordsDataset` (line 5), `none` while unloaded. -/
structure ModuleState where
  wordsDataset : Option (List (List Char))

/-- `getCorrection` as the stateful module function: takes the optional
`hasWord` predicate, the current cached-dataset state and whether `fetch`
is available; returns the result, the state after the (synchronous) call,
and whether a background `loadWordsDataset()` call was fired (lines 27-30).
The fired load is asynchronous, so the cache is unchanged within the
call itself. -/
def getCorrectionM (rawWord : List Char) (hasWord : Option (List Char → Bool))
    (st : ModuleState) (fetchAvailable : Bool) :
    List Char × ModuleState × Bool :=
  if rawWord = [] then (rawWord, st, false)
  else
    (getCorrectionGen candidatesFor rawWord
        (fun w =>
          match hasWord with
          | some f => f w
          | none =>
            match st.wordsDataset with
            | some ds => ds.contains w
            | none => false),
      st, hasWord.isNone && st.wordsDataset.isNone && fetchAvailable)

/-- Modelled from the spec (section 4.2, pass 1): the set of strings
obtained by choosing, independently for each maximal run, run-length 1 when
the run has length 1, and run-length 1 or 2 when the run is longer. -/
def combosSpec : List (Char × Nat) → List (List Char)
  | [] => [[]]
  | (c, len) :: rest =>
    if len = 1 then (combosSpec rest).map (fun t => c :: t)
    else (combosSpec rest).map (fun t => c :: t)
        ++ (combosSpec rest).map (fun t => c :: c :: t)

/-- The classic recursive Levenshtein distance, used as the reference
definition to relate the DP table to minimal edit sequences. -/
def lev : List Char → List Char → Nat
  | [], b => b.length
  | _ :: as, [] => as.length + 1
  | a :: as, b :: bs =>
    min (lev as (b :: bs) + 1)
      (min (lev (a :: as) bs + 1) (lev as bs + (if a = b then 0 else 1)))
termination_by a b => (a.length, b.length)

/-- A single edit operation on a string: deletion, insertion or
substitution of one character. -/
inductive EditStep : List Char → List Char → Prop
  | del (u : List Char) (x : Char) (v : List Char) :
      EditStep (u ++ x :: v) (u ++ v)
  | ins (u : List Char) (x : Char) (v : List Char) :
      EditStep (u ++ v) (u ++ x :: v)
  | sub (u : List Char) (x y : Char) (v : List Char) :
      EditStep (u ++ x :: v) (u ++ y :: v)

/-- `EditChain n a b`: `a` can be transformed into `b` by `n` single
character edits. -/
inductive EditChain : Nat → List Char → List Char → Prop
  | nil (a : List Char) : EditChain 0 a a
  | step {a b c : List Char} {n : Nat} :
      EditStep a b → EditChain n b c → EditChain (n + 1) a c

/-- First-minimum selection, the mathematical reading of the best-hit
loop: starting from current best `b`, scan the list and replace the best
exactly on strict improvement. -/
def pick (lower : List Char) : List Char → List (List Char) → List Char
  | b, [] => b
  | b, h :: t =>
    if levenshtein lower h < levenshtein lower b then pick lower h t
    else pick lower b t

/-- Oracle recognizing only `"cool"`. -/
def coolOracle : List Char → Bool := fun w => w = "cool".toList

/-- Oracle recognizing only `"a"`. -/
def aOracle : List Char → Bool := fun w => w = "a".toList

/-- Oracle recognizing only `"cat"`. -/
def catOracle : List Char → Bool := fun w => w = "cat".toList

/-- Oracle recognizing only `"hi"`. -/
def hiOracle : List Char → Bool := fun w => w = "hi".toList

theorem toNat_ofNat_of_valid {n : Nat} (h : n.isValidChar) :
    (Char.ofNat n).toNat = n := by
  rw [Char.ofNat, dif_pos h]; rfl

theorem toNat_toLowerChar_of_upper {c : Char}
    (h : 65 ≤ c.toNat ∧ c.toNat ≤ 90) :
    (toLowerChar c).toNat = c.toNat + 32 := by
  rw [toLowerChar, if_pos h]
  exact toNat_ofNat_of_valid (Or.inl (by omega))

theorem toLowerChar_eq_self {c : Char}
    (h : ¬(65 ≤ c.toNat ∧ c.toNat ≤ 90)) : toLowerChar c = c := by
  rw [toLowerChar, if_neg h]

theorem toLowerChar_idem (c : Char) :
    toLowerChar (toLowerChar c) = toLowerChar c := by
  by_cases h : 65 ≤ c.toNat ∧ c.toNat ≤ 90
  · have h1 := toNat_toLowerChar_of_upper h
    exact toLowerChar_eq_self (by omega)
  · rw [toLowerChar_eq_self h]
    exact toLowerChar_eq_self h

theorem toNat_lt_of_fixed {c : Char} (h : toLowerChar c = c) :
    ¬(65 ≤ c.toNat ∧ c.toNat ≤ 90) := by
  intro hc
  have h1 := toNat_toLowerChar_of_upper hc
  rw [h] at h1
  omega

theorem toLowerChar_toUpperChar_of_fixed {c : Char} (h : toLowerChar c = c) :
    toLowerChar (toUpperChar c) = c := by
  by_cases hl : 97 ≤ c.toNat ∧ c.toNat ≤ 122
  · have hv : (c.toNat - 32).isValidChar := Or.inl (by omega)
    have hup : (toUpperChar c).toNat = c.toNat - 32 := by
      rw [toUpperChar, if_pos hl]
      exact toNat_ofNat_of_valid hv
    have hupper : 65 ≤ (toUpperChar c).toNat ∧ (toUpperChar c).toNat ≤ 90 := by omega
    have h2 : (toLowerChar (toUpperChar c)).toNat = c.toNat := by
      rw [toNat_toLowerChar_of_upper hupper]; omega
    exact Char.ext (UInt32.ext h2)
  · have hnu := toNat_lt_of_fixed h
    rw [toUpperChar, if_neg hl, toLowerChar_eq_self hnu]

theorem alphabet_fixed : ∀ ch ∈ alphabet, toLowerChar ch = ch := by decide

theorem mem_insertOnce {s : List (List Char)} {c x : List Char} :
    x ∈ insertOnce s c ↔ x ∈ s ∨ x = c := by
  rw [insertOnce]
  split
  · constructor
    · exact fun h => Or.inl h
    · rintro (h | rfl)
      · exact h
      · assumption
  · simp [or_comm]

theorem mem_foldl_insertOnce {l : List (List Char)} :
    ∀ {init : List (List Char)} {x : List Char},
      x ∈ l.foldl insertOnce init ↔ x ∈ init ∨ x ∈ l := by
  induction l with
  | nil => simp
  | cons c t ih =>
    intro init x
    rw [List.foldl_cons, ih, mem_insertOnce]
    constructor
    · rintro ((h | h) | h) <;> simp [h]
    · rintro (h | h)
      · exact Or.inl (Or.inl h)
      · rcases List.mem_cons.mp h with h | h
        · exact Or.inl (Or.inr h)
        · exact Or.inr h

theorem runsAux_join (rest : List Char) :
    ∀ (c : Char) (n : Nat),
      ((runsAux c n rest).map (fun r => List.replicate r.2 r.1)).flatten
        = List.replicate n c ++ rest := by
  induction rest with
  | nil => intro c n; simp [runsAux]
  | cons d tail ih =>
    intro c n
    rw [runsAux]
    by_cases hd : d = c
    · subst hd
      rw [if_pos rfl, ih, List.replicate_succ' n d, List.append_assoc]
      rfl
    · rw [if_neg hd, List.map_cons, List.flatten_cons, ih d 1]
      rfl

theorem runsFrom_join (w : List Char) :
    ((runsFrom w).map (fun r => List.replicate r.2 r.1)).flatten = w := by
  cases w with
  | nil => rfl
  | cons c rest => rw [runsFrom, runsAux_join]; rfl

theorem runsAux_len_pos (rest : List Char) :
    ∀ (c : Char) (n : Nat), 1 ≤ n → ∀ r ∈ runsAux c n rest, 1 ≤ r.2 := by
  induction rest with
  | nil =>
    intro c n hn r hr
    rw [runsAux, List.mem_singleton] at hr
    subst hr; exact hn
  | cons d tail ih =>
    intro c n hn r hr
    rw [runsAux] at hr
    by_cases hd : d = c
    · rw [if_pos hd] at hr
      exact ih c (n + 1) (by omega) r hr
    · rw [if_neg hd, List.mem_cons] at hr
      rcases hr with rfl | hr
      · exact hn
      · exact ih d 1 le_rfl r hr

theorem runsFrom_len_pos (w : List Char) : ∀ r ∈ runsFrom w, 1 ≤ r.2 := by
  cases w with
  | nil => intro r hr; simp [runsFrom] at hr
  | cons c rest => exact runsAux_len_pos rest c 1 le_rfl

theorem runsAux_chain (rest : List Char) :
    ∀ (c : Char) (n : Nat),
      List.Chain' (fun r s => r.1 ≠ s.1) (runsAux c n rest) ∧
        ∃ m, (runsAux c n rest).head? = some (c, m) := by
  induction rest with
  | nil => intro c n; exact ⟨List.chain'_singleton _, n, rfl⟩
  | cons d tail ih =>
    intro c n
    rw [runsAux]
    by_cases hd : d = c
    · rw [if_pos hd]; exact ih c (n + 1)
    · rw [if_neg hd]
      obtain ⟨hch, m, hm⟩ := ih d 1
      refine ⟨List.chain'_cons'.mpr ⟨?_, hch⟩, n, rfl⟩
      intro b hb
      rw [hm, Option.mem_some_iff] at hb
      subst hb
      exact fun h => hd h.symm

theorem runsFrom_chain (w : List Char) :
    List.Chain' (fun r s => r.1 ≠ s.1) (runsFrom w) := by
  cases w with
  | nil => exact List.chain'_nil
  | cons c rest => exact (runsAux_chain rest c 1).1

theorem runsAux_chars (rest : List Char) :
    ∀ (c : Char) (n : Nat) (r : Char × Nat),
      r ∈ runsAux c n rest → r.1 = c ∨ r.1 ∈ rest := by
  induction rest with
  | nil =>
    intro c n r hr
    rw [runsAux, List.mem_singleton] at hr
    subst hr; exact Or.inl rfl
  | cons d tail ih =>
    intro c n r hr
    rw [runsAux] at hr
    by_cases hd : d = c
    · rw [if_pos hd] at hr
      rcases ih c (n + 1) r hr with h | h
      · exact Or.inl h
      · exact Or.inr (List.mem_cons_of_mem d h)
    · rw [if_neg hd, List.mem_cons] at hr
      rcases hr with rfl | hr
      · exact Or.inl rfl
      · rcases ih d 1 r hr with h | h
        · exact Or.inr (h ▸ List.mem_cons_self d tail)
        · exact Or.inr (List.mem_cons_of_mem d h)

theorem runsFrom_chars {w : List Char} {r : Char × Nat} (hr : r ∈ runsFrom w) :
    r.1 ∈ w := by
  cases w with
  | nil => simp [runsFrom] at hr
  | cons c rest =>
    rcases runsAux_chars rest c 1 r hr with h | h
    · exact h ▸ List.mem_cons_self c rest
    · exact List.mem_cons_of_mem c h

theorem backtrack_eq_combos :
    ∀ (rs : List (Char × Nat)) (acc : List Char),
      backtrack rs acc = (combosSpec rs).map (fun t => acc ++ t) := by
  intro rs
  induction rs with
  | nil => intro acc; simp [backtrack, combosSpec]
  | cons r rest ih =>
    intro acc
    obtain ⟨c, len⟩ := r
    rw [backtrack, combosSpec]
    by_cases hlen : len = 1
    · rw [if_pos hlen, if_pos hlen, ih, List.map_map]
      apply List.map_congr_left
      intro t _
      simp
    · rw [if_neg hlen, if_neg hlen, ih, ih, List.map_append,
        List.map_map, List.map_map]
      congr 1 <;>
        · apply List.map_congr_left
          intro t _
          simp

theorem mem_repeatVariants {w v : List Char} :
    v ∈ repeatVariants w ↔ v ∈ combosSpec (runsFrom w) := by
  rw [repeatVariants, mem_foldl_insertOnce, backtrack_eq_combos]
  simp

theorem combosSpec_chars :
    ∀ (rs : List (Char × Nat)) (v : List Char), v ∈ combosSpec rs →
      ∀ ch ∈ v, ch ∈ rs.map Prod.fst := by
  intro rs
  induction rs with
  | nil =>
    intro v hv ch hch
    rw [combosSpec, List.mem_singleton] at hv
    subst hv; simp at hch
  | cons r rest ih =>
    intro v hv ch hch
    obtain ⟨c, len⟩ := r
    rw [combosSpec] at hv
    by_cases hlen : len = 1
    · rw [if_pos hlen, List.mem_map] at hv
      obtain ⟨t, ht, rfl⟩ := hv
      rcases List.mem_cons.mp hch with rfl | hch
      · exact List.mem_cons_self _ _
      · exact List.mem_cons_of_mem _ (ih t ht ch hch)
    · rw [if_neg hlen, List.mem_append, List.mem_map, List.mem_map] at hv
      rcases hv with ⟨t, ht, rfl⟩ | ⟨t, ht, rfl⟩
      · rcases List.mem_cons.mp hch with rfl | hch
        · exact List.mem_cons_self _ _
        · exact List.mem_cons_of_mem _ (ih t ht ch hch)
      · rcases List.mem_cons.mp hch with rfl | hch
        · exact List.mem_cons_self _ _
        · rcases List.mem_cons.mp hch with rfl | hch
          · exact List.mem_cons_self _ _
          · exact List.mem_cons_of_mem _ (ih t ht ch hch)

theorem mem_candidatesFor {lower c : List Char} :
    c ∈ candidatesFor lower ↔
      c ∈ repeatVariants lower ∨ c ∈ delCandidates lower ∨
        c ∈ insCandidates lower ∨ c ∈ subCandidates lower := by
  rw [candidatesFor, mem_foldl_insertOnce]
  simp [or_assoc]

theorem map_toLowerChar_fixed {raw : List Char} :
    ∀ ch ∈ raw.map toLowerChar, toLowerChar ch = ch := by
  intro ch hch
  obtain ⟨x, _, rfl⟩ := List.mem_map.mp hch
  exact toLowerChar_idem x

theorem candidatesFor_chars {lower : List Char}
    (hl : ∀ ch ∈ lower, toLowerChar ch = ch) :
    ∀ c ∈ candidatesFor lower, ∀ ch ∈ c, toLowerChar ch = ch := by
  intro c hc ch hch
  rcases mem_candidatesFor.mp hc with h | h | h | h
  · have hcomb := mem_repeatVariants.mp h
    have hmem := combosSpec_chars (runsFrom lower) c hcomb ch hch
    obtain ⟨r, hr, rfl⟩ := List.mem_map.mp hmem
    exact hl _ (runsFrom_chars hr)
  · rw [delCandidates, List.mem_map] at h
    obtain ⟨i, _, rfl⟩ := h
    rcases List.mem_append.mp hch with h | h
    · exact hl ch (List.take_subset i lower h)
    · exact hl ch (List.drop_subset (i + 1) lower h)
  · rw [insCandidates, List.mem_flatMap] at h
    obtain ⟨i, _, hm⟩ := h
    obtain ⟨a, ha, rfl⟩ := List.mem_map.mp hm
    rcases List.mem_append.mp hch with h | h
    · exact hl ch (List.take_subset i lower h)
    · rcases List.mem_cons.mp h with rfl | h
      · exact alphabet_fixed ch ha
      · exact hl ch (List.drop_subset i lower h)
  · rw [subCandidates, List.mem_flatMap] at h
    obtain ⟨i, _, hm⟩ := h
    obtain ⟨a, ha, rfl⟩ := List.mem_map.mp hm
    rcases List.mem_append.mp hch with h | h
    · exact hl ch (List.take_subset i lower h)
    · rcases List.mem_cons.mp h with rfl | h
      · exact alphabet_fixed ch (List.mem_of_mem_filter ha)
      · exact hl ch (List.drop_subset (i + 1) lower h)

theorem preserveCase_ne_nil {original corrected : List Char}
    (h : corrected ≠ []) : preserveCase original corrected ≠ [] := by
  rw [preserveCase.eq_def, if_neg h]
  split
  · simpa using h
  · split
    · exact h
    · split
      · split
        · exact h
        · simp
      · exact h

theorem preserveCase_map_toLower {original corrected : List Char}
    (h : corrected ≠ []) (hfix : ∀ ch ∈ corrected, toLowerChar ch = ch) :
    (preserveCase original corrected).map toLowerChar = corrected := by
  have hmap : corrected.map toLowerChar = corrected :=
    List.map_congr_left hfix |>.trans (List.map_id corrected)
  rw [preserveCase.eq_def, if_neg h]
  split
  · rw [List.map_map]
    have : ∀ ch ∈ corrected, (toLowerChar ∘ toUpperChar) ch = id ch := by
      intro ch hch
      exact toLowerChar_toUpperChar_of_fixed (hfix ch hch)
    rw [List.map_congr_left this, List.map_id]
  · split
    · exact hmap
    · split
      · split
        · exact hmap
        · rename_i c cs
          have h1 : toLowerChar (toUpperChar c) = c :=
            toLowerChar_toUpperChar_of_fixed (hfix c (List.mem_cons_self c cs))
          have h2 : cs.map toLowerChar = cs :=
            (List.map_congr_left fun ch hch =>
                hfix ch (List.mem_cons_of_mem c hch)).trans (List.map_id cs)
          simp only [List.map_cons, h1, h2]
      · exact hmap

theorem lev_nil_left (b : List Char) : lev [] b = b.length := by rw [lev]

theorem lev_nil_right (a : List Char) : lev a [] = a.length := by
  cases a with
  | nil => rw [lev]
  | cons x xs => rw [lev]; rfl

theorem lev_cons_cons (a : Char) (as : List Char) (b : Char) (bs : List Char) :
    lev (a :: as) (b :: bs) =
      min (lev as (b :: bs) + 1)
        (min (lev (a :: as) bs + 1) (lev as bs + (if a = b then 0 else 1))) := by
  rw [lev]

theorem lev_self (a : List Char) : lev a a = 0 := by
  induction a with
  | nil => rw [lev_nil_left]; rfl
  | cons x xs ih =>
    rw [lev_cons_cons, ih, if_pos rfl]
    simp

theorem editChain_trans {m n : Nat} {a b c : List Char}
    (h1 : EditChain m a b) (h2 : EditChain n b c) : EditChain (m + n) a c := by
  induction h1 with
  | nil => simpa using h2
  | step s _ ih =>
    rw [Nat.succ_add]
    exact .step s (ih h2)

theorem editChain_single {a b : List Char} (h : EditStep a b) : EditChain 1 a b :=
  .step h (.nil b)

theorem editStep_cons (c : Char) {x y : List Char} (h : EditStep x y) :
    EditStep (c :: x) (c :: y) := by
  cases h with
  | del u z v => exact EditStep.del (c :: u) z v
  | ins u z v => exact EditStep.ins (c :: u) z v
  | sub u z z' v => exact EditStep.sub (c :: u) z z' v

theorem editChain_cons (c : Char) {n : Nat} {x y : List Char}
    (h : EditChain n x y) : EditChain n (c :: x) (c :: y) := by
  induction h with
  | nil => exact .nil _
  | step s _ ih => exact .step (editStep_cons c s) ih

theorem editChain_ins_nil (b : List Char) : EditChain b.length [] b := by
  induction b with
  | nil => exact .nil []
  | cons x xs ih =>
    exact editChain_trans ih (editChain_single (EditStep.ins [] x xs))

theorem editChain_del_nil (a : List Char) : EditChain a.length a [] := by
  induction a with
  | nil => exact .nil []
  | cons x xs ih => exact .step (EditStep.del [] x xs) ih

theorem editChain_lev : ∀ (a b : List Char), EditChain (lev a b) a b := by
  intro a
  induction a with
  | nil =>
    intro b
    rw [lev_nil_left]
    exact editChain_ins_nil b
  | cons a0 as iha =>
    intro b
    induction b with
    | nil =>
      rw [lev_nil_right]
      exact editChain_del_nil (a0 :: as)
    | cons b0 bs ihb =>
      rw [lev_cons_cons]
      rcases min_choice (lev as (b0 :: bs) + 1)
          (min (lev (a0 :: as) bs + 1)
            (lev as bs + (if a0 = b0 then 0 else 1))) with h | h
      · rw [h]
        exact .step (EditStep.del [] a0 as) (iha (b0 :: bs))
      · rw [h]
        rcases min_choice (lev (a0 :: as) bs + 1)
            (lev as bs + (if a0 = b0 then 0 else 1)) with h2 | h2
        · rw [h2]
          exact editChain_trans ihb (editChain_single (EditStep.ins [] b0 bs))
        · rw [h2]
          by_cases hab : a0 = b0
          · rw [if_pos hab]
            subst hab
            simpa using editChain_cons a0 (iha bs)
          · rw [if_neg hab]
            exact .step (EditStep.sub [] a0 b0 as) (editChain_cons b0 (iha bs))

theorem lev_del_right_le (a : List Char) (y : Char) (w : List Char) :
    lev a (y :: w) ≤ lev a w + 1 := by
  cases a with
  | nil =>
    rw [lev_nil_left, lev_nil_left]
    simp
  | cons a0 as =>
    rw [lev_cons_cons]
    exact le_trans (min_le_right _ _) (min_le_left _ _)

theorem lev_step_del (x : Char) (v : List Char) :
    ∀ (c u : List Char), lev (u ++ x :: v) c ≤ lev (u ++ v) c + 1 := by
  intro c
  induction c with
  | nil =>
    intro u
    rw [lev_nil_right, lev_nil_right]
    simp only [List.length_append, List.length_cons]
    omega
  | cons c0 cs ihc =>
    intro u
    induction u with
    | nil =>
      simp only [List.nil_append]
      rw [lev_cons_cons]
      exact min_le_left _ _
    | cons u0 us ihu =>
      simp only [List.cons_append]
      simp only [List.cons_append] at ihu
      rw [lev_cons_cons, lev_cons_cons]
      have h2 := ihc (u0 :: us)
      have h3 := ihc us
      simp only [List.cons_append] at h2
      by_cases hc : u0 = c0
      · simp only [if_pos hc]
        omega
      · simp only [if_neg hc]
        omega

theorem lev_step_ins (x : Char) (v : List Char) :
    ∀ (c u : List Char), lev (u ++ v) c ≤ lev (u ++ x :: v) c + 1 := by
  intro c
  induction c with
  | nil =>
    intro u
    rw [lev_nil_right, lev_nil_right]
    simp only [List.length_append, List.length_cons]
    omega
  | cons c0 cs ihc =>
    intro u
    induction u with
    | nil =>
      simp only [List.nil_append]
      rw [lev_cons_cons]
      have h1 := lev_del_right_le v c0 cs
      have h2 := ihc ([] : List Char)
      simp only [List.nil_append] at h2
      by_cases hx : x = c0
      · simp only [if_pos hx]
        omega
      · simp only [if_neg hx]
        omega
    | cons u0 us ihu =>
      simp only [List.cons_append]
      simp only [List.cons_append] at ihu
      rw [lev_cons_cons, lev_cons_cons]
      have h2 := ihc (u0 :: us)
      have h3 := ihc us
      simp only [List.cons_append] at h2
      by_cases hc : u0 = c0
      · simp only [if_pos hc]
        omega
      · simp only [if_neg hc]
        omega

theorem lev_step_sub (x y : Char) (v : List Char) :
    ∀ (c u : List Char), lev (u ++ x :: v) c ≤ lev (u ++ y :: v) c + 1 := by
  intro c
  induction c with
  | nil =>
    intro u
    rw [lev_nil_right, lev_nil_right]
    simp only [List.length_append, List.length_cons]
    omega
  | cons c0 cs ihc =>
    intro u
    induction u with
    | nil =>
      simp only [List.nil_append]
      rw [lev_cons_cons, lev_cons_cons]
      have h2 := ihc ([] : List Char)
      simp only [List.nil_append] at h2
      have hcx : (if x = c0 then (0 : Nat) else 1) ≤ 1 := by split <;> omega
      have hcy : (if y = c0 then (0 : Nat) else 1) ≤ 1 := by split <;> omega
      omega
    | cons u0 us ihu =>
      simp only [List.cons_append]
      simp only [List.cons_append] at ihu
      rw [lev_cons_cons, lev_cons_cons]
      have h2 := ihc (u0 :: us)
      have h3 := ihc us
      simp only [List.cons_append] at h2
      by_cases hc : u0 = c0
      · simp only [if_pos hc]
        omega
      · simp only [if_neg hc]
        omega

theorem lev_le_of_editStep {a a' : List Char} (h : EditStep a a') :
    ∀ c, lev a c ≤ lev a' c + 1 := by
  cases h with
  | del u x v => exact fun c => lev_step_del x v c u
  | ins u x v => exact fun c => lev_step_ins x v c u
  | sub u x y v => exact fun c => lev_step_sub x y v c u

theorem lev_le_of_editChain {n : Nat} {a b : List Char}
    (h : EditChain n a b) : lev a b ≤ n := by
  induction h with
  | nil =>
    rw [lev_self]
  | step s _ ih =>
    exact le_trans (lev_le_of_editStep s _) (by omega)

theorem editChain_zero_eq {a b : List Char} (h : EditChain 0 a b) : a = b := by
  cases h
  rfl

theorem lev_eq_zero_iff {a b : List Char} : lev a b = 0 ↔ a = b :=
  ⟨fun h => editChain_zero_eq (h ▸ editChain_lev a b), fun h => h ▸ lev_self a⟩

theorem editStep_reverse {a b : List Char} (h : EditStep a b) :
    EditStep a.reverse b.reverse := by
  cases h with
  | del u x v =>
    have h1 := EditStep.del v.reverse x u.reverse
    simpa using h1
  | ins u x v =>
    have h1 := EditStep.ins v.reverse x u.reverse
    simpa using h1
  | sub u x y v =>
    have h1 := EditStep.sub v.reverse x y u.reverse
    simpa using h1

theorem editChain_reverse {n : Nat} {a b : List Char} (h : EditChain n a b) :
    EditChain n a.reverse b.reverse := by
  induction h with
  | nil => exact .nil _
  | step s _ ih => exact .step (editStep_reverse s) ih

theorem dpFun_zero (a b : List Char) (j : Nat) : dpFun a b 0 j = j := rfl

theorem dpFun_succ_zero (a b : List Char) (i : Nat) :
    dpFun a b (i + 1) 0 = i + 1 := rfl

theorem dpFun_succ_succ (a b : List Char) (i j : Nat) :
    dpFun a b (i + 1) (j + 1) =
      min (dpFun a b i (j + 1) + 1)
        (min (dpFun a b (i + 1) j + 1)
          (dpFun a b i j + (if a[i]? = b[j]? then 0 else 1))) := rfl

theorem take_succ_reverse {l : List Char} {i : Nat} (h : i < l.length) :
    (l.take (i + 1)).reverse = l[i] :: (l.take i).reverse := by
  rw [List.take_succ, List.getElem?_eq_getElem h]
  simp

theorem dpFun_eq_lev (a b : List Char) :
    ∀ i, i ≤ a.length → ∀ j, j ≤ b.length →
      dpFun a b i j = lev ((a.take i).reverse) ((b.take j).reverse) := by
  intro i
  induction i with
  | zero =>
    intro _ j hj
    simp only [dpFun_zero, List.take_zero, List.reverse_nil, lev_nil_left,
      List.length_reverse, List.length_take]
    omega
  | succ i ihi =>
    intro hi j
    induction j with
    | zero =>
      intro _
      simp only [dpFun_succ_zero, List.take_zero, List.reverse_nil,
        lev_nil_right, List.length_reverse, List.length_take]
      omega
    | succ j ihj =>
      intro hj
      have hia : i < a.length := by omega
      have hjb : j < b.length := by omega
      rw [dpFun_succ_succ, ihi (by omega) (j + 1) hj, ihi (by omega) j (by omega),
        ihj (by omega), take_succ_reverse hia, take_succ_reverse hjb, lev_cons_cons,
        List.getElem?_eq_getElem hia, List.getElem?_eq_getElem hjb]
      simp only [Option.some.injEq]

theorem levenshtein_eq_lev (a b : List Char) :
    levenshtein a b = lev a.reverse b.reverse := by
  rw [levenshtein, dpFun_eq_lev a b a.length le_rfl b.length le_rfl,
    List.take_length, List.take_length]

theorem editChain_levenshtein (a b : List Char) :
    EditChain (levenshtein a b) a b := by
  have h := editChain_reverse (editChain_lev a.reverse b.reverse)
  rw [List.reverse_reverse, List.reverse_reverse] at h
  rw [levenshtein_eq_lev]
  exact h

theorem levenshtein_le_chain {n : Nat} {a b : List Char}
    (h : EditChain n a b) : levenshtein a b ≤ n := by
  rw [levenshtein_eq_lev]
  exact lev_le_of_editChain (editChain_reverse h)

theorem levenshtein_eq_zero_iff {a b : List Char} :
    levenshtein a b = 0 ↔ a = b := by
  rw [levenshtein_eq_lev, lev_eq_zero_iff]
  constructor
  · intro h
    have := congrArg List.reverse h
    simpa using this
  · rintro rfl
    rfl

theorem foldl_bestStep (lower : List Char) :
    ∀ (t : List (List Char)) (b : List Char),
      t.foldl
          (fun st h =>
            match st with
            | none => some (h, levenshtein lower h)
            | some (bb, s) =>
              if levenshtein lower h < s then some (h, levenshtein lower h)
              else some (bb, s))
          (some (b, levenshtein lower b))
        = some (pick lower b t, levenshtein lower (pick lower b t)) := by
  intro t
  induction t with
  | nil => intro b; rfl
  | cons h t ih =>
    intro b
    rw [List.foldl_cons, pick]
    by_cases hlt : levenshtein lower h < levenshtein lower b
    · simp only [if_pos hlt]
      exact ih h
    · simp only [if_neg hlt]
      exact ih b

theorem bestFold_cons (lower : List Char) (h : List Char) (t : List (List Char)) :
    bestFold lower (h :: t) =
      some (pick lower h t, levenshtein lower (pick lower h t)) := by
  rw [bestFold, List.foldl_cons]
  exact foldl_bestStep lower t h

theorem chooseBest_cons (lower : List Char) (h : List Char) (t : List (List Char)) :
    chooseBest lower (h :: t) = pick lower h t := by
  rw [chooseBest, bestFold_cons]
  rfl

theorem pick_mem (lower : List Char) :
    ∀ (t : List (List Char)) (b : List Char), pick lower b t ∈ b :: t := by
  intro t
  induction t with
  | nil => intro b; rw [pick]; exact List.mem_singleton_self b
  | cons h t ih =>
    intro b
    rw [pick]
    by_cases hlt : levenshtein lower h < levenshtein lower b
    · rw [if_pos hlt]
      exact List.mem_cons_of_mem b (ih h)
    · rw [if_neg hlt]
      rcases List.mem_cons.mp (ih b) with h1 | h1
      · rw [h1]
        exact List.mem_cons_self b (h :: t)
      · exact List.mem_cons_of_mem b (List.mem_cons_of_mem h h1)

theorem pick_le_start (lower : List Char) :
    ∀ (t : List (List Char)) (b : List Char),
      levenshtein lower (pick lower b t) ≤ levenshtein lower b := by
  intro t
  induction t with
  | nil => intro b; rw [pick]
  | cons h t ih =>
    intro b
    rw [pick]
    by_cases hlt : levenshtein lower h < levenshtein lower b
    · rw [if_pos hlt]
      exact le_trans (ih h) (le_of_lt hlt)
    · rw [if_neg hlt]
      exact ih b

theorem pick_min (lower : List Char) :
    ∀ (t : List (List Char)) (b : List Char), ∀ h ∈ b :: t,
      levenshtein lower (pick lower b t) ≤ levenshtein lower h := by
  intro t
  induction t with
  | nil =>
    intro b h hmem
    rw [List.mem_singleton] at hmem
    subst hmem
    rw [pick]
  | cons hh t ih =>
    intro b h hmem
    rw [pick]
    by_cases hlt : levenshtein lower hh < levenshtein lower b
    · rw [if_pos hlt]
      rcases List.mem_cons.mp hmem with rfl | h1
      · exact le_trans (pick_le_start lower t hh) (le_of_lt hlt)
      · exact ih hh h h1
    · rw [if_neg hlt]
      rcases List.mem_cons.mp hmem with rfl | h1
      · exact ih _ _ (List.mem_cons_self _ t)
      · rcases List.mem_cons.mp h1 with rfl | h2
        · exact le_trans (pick_le_start lower t b) (by omega)
        · exact ih b h (List.mem_cons_of_mem b h2)

theorem pick_lt_of_ne (lower : List Char) :
    ∀ (t : List (List Char)) (b : List Char), pick lower b t ≠ b →
      levenshtein lower (pick lower b t) < levenshtein lower b := by
  intro t
  induction t with
  | nil =>
    intro b hne
    rw [pick] at hne
    exact absurd rfl hne
  | cons h t ih =>
    intro b hne
    rw [pick]
    by_cases hlt : levenshtein lower h < levenshtein lower b
    · rw [if_pos hlt]
      exact lt_of_le_of_lt (pick_le_start lower t h) hlt
    · rw [if_neg hlt]
      rw [pick, if_neg hlt] at hne
      exact ih b hne

theorem pick_find (lower : List Char) :
    ∀ (t : List (List Char)) (b : List Char),
      (b :: t).find?
          (fun h => levenshtein lower h == levenshtein lower (pick lower b t))
        = some (pick lower b t) := by
  intro t
  induction t with
  | nil =>
    intro b
    rw [pick]
    rw [List.find?_cons_of_pos _ (by simp)]
  | cons hh t ih =>
    intro b
    by_cases hlt : levenshtein lower hh < levenshtein lower b
    · have hp : pick lower b (hh :: t) = pick lower hh t := by
        rw [pick, if_pos hlt]
      rw [hp]
      have hlt2 : levenshtein lower (pick lower hh t) < levenshtein lower b :=
        lt_of_le_of_lt (pick_le_start lower t hh) hlt
      rw [List.find?_cons_of_neg _ (by simp; omega)]
      exact ih hh
    · have hp : pick lower b (hh :: t) = pick lower b t := by
        rw [pick, if_neg hlt]
      rw [hp]
      by_cases hb : levenshtein lower b = levenshtein lower (pick lower b t)
      · have hbe : pick lower b t = b := by
          by_contra hne
          have := pick_lt_of_ne lower t b hne
          omega
        rw [hbe]
        rw [List.find?_cons_of_pos _ (by simp)]
      · have hble : levenshtein lower (pick lower b t) ≤ levenshtein lower b :=
          pick_le_start lower t b
        have hhh : levenshtein lower b ≤ levenshtein lower hh := by omega
        have hne2 : levenshtein lower hh ≠ levenshtein lower (pick lower b t) := by
          omega
        rw [List.find?_cons_of_neg _ (by simp [hb]),
          List.find?_cons_of_neg _ (by simp [hne2])]
        have hih := ih b
        rw [List.find?_cons_of_neg _ (by simp [hb])] at hih
        exact hih

theorem chooseBest_mem {lower : List Char} {hits : List (List Char)}
    (h : hits ≠ []) : chooseBest lower hits ∈ hits := by
  cases hits with
  | nil => exact absurd rfl h
  | cons hh t =>
    rw [chooseBest_cons]
    exact pick_mem lower t hh

theorem getCorrectionGen_nil (gen : List Char → List (List Char))
    (isWord : List Char → Bool) : getCorrectionGen gen [] isWord = [] := by
  rw [getCorrectionGen, if_pos rfl]

theorem getCorrectionGen_known {gen : List Char → List (List Char)}
    {raw : List Char} {isWord : List Char → Bool} (h0 : raw ≠ [])
    (h1 : isWord (raw.map toLowerChar) = true) :
    getCorrectionGen gen raw isWord = raw := by
  rw [getCorrectionGen, if_neg h0, if_pos h1]

theorem getCorrectionGen_noHits {gen : List Char → List (List Char)}
    {raw : List Char} {isWord : List Char → Bool} (h0 : raw ≠ [])
    (h1 : isWord (raw.map toLowerChar) = false)
    (h2 : hitsGen gen (raw.map toLowerChar) isWord = []) :
    getCorrectionGen gen raw isWord = raw := by
  rw [getCorrectionGen, if_neg h0, if_neg (by simp [h1]),
    if_pos (by simp [h2])]

theorem getCorrectionGen_hits {gen : List Char → List (List Char)}
    {raw : List Char} {isWord : List Char → Bool} (h0 : raw ≠ [])
    (h1 : isWord (raw.map toLowerChar) = false)
    (h2 : hitsGen gen (raw.map toLowerChar) isWord ≠ []) :
    getCorrectionGen gen raw isWord =
      preserveCase raw
        (chooseBest (raw.map toLowerChar)
          (hitsGen gen (raw.map toLowerChar) isWord)) := by
  rw [getCorrectionGen, if_neg h0, if_neg (by simp [h1]),
    if_neg (by simp [List.isEmpty_iff, h2])]

theorem mem_hitsGen {gen : List Char → List (List Char)} {lower c : List Char}
    {isWord : List Char → Bool} :
    c ∈ hitsGen gen lower isWord ↔
      c ∈ gen lower ∧ c ≠ [] ∧ isWord c = true := by
  rw [hitsGen, List.mem_filter]
  simp [List.isEmpty_iff, and_assoc]

theorem hitsFor_eq (lower : List Char) (isWord : List Char → Bool) :
    hitsFor lower isWord = hitsGen candidatesFor lower isWord := rfl

theorem levenshtein_le_one_of_editStep {a b : List Char} (h : EditStep a b) :
    levenshtein a b ≤ 1 :=
  levenshtein_le_chain (editChain_single h)

theorem delCandidates_editStep {lower : List Char} :
    ∀ c ∈ delCandidates lower, EditStep lower c := by
  intro c hc
  rw [delCandidates, List.mem_map] at hc
  obtain ⟨i, hi, rfl⟩ := hc
  rw [List.mem_range] at hi
  have hsplit : lower = lower.take i ++ lower[i] :: lower.drop (i + 1) := by
    conv_lhs => rw [← List.take_append_drop i lower]
    rw [List.drop_eq_getElem_cons hi]
  have hstep := EditStep.del (lower.take i) (lower[i]) (lower.drop (i + 1))
  rw [← hsplit] at hstep
  exact hstep

theorem insCandidates_editStep {lower : List Char} :
    ∀ c ∈ insCandidates lower, EditStep lower c := by
  intro c hc
  rw [insCandidates, List.mem_flatMap] at hc
  obtain ⟨i, _, hm⟩ := hc
  obtain ⟨ch, _, rfl⟩ := List.mem_map.mp hm
  have hstep := EditStep.ins (lower.take i) ch (lower.drop i)
  rw [List.take_append_drop] at hstep
  exact hstep

theorem subCandidates_editStep {lower : List Char} :
    ∀ c ∈ subCandidates lower, EditStep lower c := by
  intro c hc
  rw [subCandidates, List.mem_flatMap] at hc
  obtain ⟨i, hi, hm⟩ := hc
  rw [List.mem_range] at hi
  obtain ⟨ch, _, rfl⟩ := List.mem_map.mp hm
  have hsplit : lower = lower.take i ++ lower[i] :: lower.drop (i + 1) := by
    conv_lhs => rw [← List.take_append_drop i lower]
    rw [List.drop_eq_getElem_cons hi]
  have hstep := EditStep.sub (lower.take i) (lower[i]) ch (lower.drop (i + 1))
  rw [← hsplit] at hstep
  exact hstep

theorem insertOnce_nodup {s : List (List Char)} {c : List Char}
    (h : s.Nodup) : (insertOnce s c).Nodup := by
  rw [insertOnce]
  split
  · exact h
  · rename_i hc
    rw [List.nodup_append]
    exact ⟨h, List.nodup_singleton c, by simp [List.disjoint_singleton, hc]⟩

theorem foldl_insertOnce_nodup :
    ∀ (l : List (List Char)) (acc : List (List Char)), acc.Nodup →
      (l.foldl insertOnce acc).Nodup := by
  intro l
  induction l with
  | nil => exact fun acc h => h
  | cons x xs ih =>
    intro acc h
    rw [List.foldl_cons]
    exact ih _ (insertOnce_nodup h)

theorem candidatesFor_nodup (lower : List Char) : (candidatesFor lower).Nodup :=
  foldl_insertOnce_nodup _ [] List.nodup_nil

theorem filter_eq_singleton_of_nodup {l : List (List Char)}
    {p : List Char → Bool} {target : List Char} (hnd : l.Nodup)
    (hmem : target ∈ l) (hp : ∀ c, p c = true ↔ c = target) :
    l.filter p = [target] := by
  induction l with
  | nil => cases hmem
  | cons x xs ih =>
    rw [List.nodup_cons] at hnd
    rcases List.mem_cons.mp hmem with rfl | hmem2
    · rw [List.filter_cons_of_pos ((hp _).mpr rfl)]
      have hnil : xs.filter p = [] := by
        apply List.filter_eq_nil_iff.mpr
        intro a ha hpa
        exact hnd.1 (((hp a).mp hpa) ▸ ha)
      rw [hnil]
    · have hpx : ¬p x = true := by
        intro hpx
        have := (hp x).mp hpx
        subst this
        exact hnd.1 hmem2
      rw [List.filter_cons_of_neg hpx]
      exact ih hnd.2 hmem2

theorem hitPred_iff {oracle : List Char → Bool} {target : List Char}
    (htar : target ≠ []) (horacle : ∀ w, oracle w = true ↔ w = target) :
    ∀ c, (!c.isEmpty && oracle c) = true ↔ c = target := by
  intro c
  rw [Bool.and_eq_true, Bool.not_eq_true']
  constructor
  · rintro ⟨_, h2⟩
    exact (horacle c).mp h2
  · rintro rfl
    refine ⟨?_, (horacle _).mpr rfl⟩
    rw [← Bool.not_eq_true, List.isEmpty_iff]
    exact htar

theorem hitsFor_singleton {lower target : List Char}
    {oracle : List Char → Bool} (hmem : target ∈ candidatesFor lower)
    (htar : target ≠ []) (horacle : ∀ w, oracle w = true ↔ w = target) :
    hitsFor lower oracle = [target] := by
  rw [hitsFor_eq, hitsGen]
  exact filter_eq_singleton_of_nodup (candidatesFor_nodup lower) hmem
    (hitPred_iff htar horacle)

theorem getCorrection_of_hits_singleton {raw target : List Char}
    {oracle : List Char → Bool} (h0 : raw ≠ [])
    (h1 : oracle (raw.map toLowerChar) = false)
    (hh : hitsFor (raw.map toLowerChar) oracle = [target]) :
    getCorrection raw oracle = preserveCase raw target := by
  have h2 : hitsGen candidatesFor (raw.map toLowerChar) oracle ≠ [] := by
    rw [← hitsFor_eq, hh]
    simp
  rw [getCorrection, getCorrectionGen_hits h0 h1 h2, ← hitsFor_eq, hh,
    chooseBest_cons, pick]

theorem getCorrection_cases (raw : List Char) (isWord : List Char → Bool) :
    getCorrection raw isWord = raw ∨
      (getCorrection raw isWord ≠ [] ∧
        isWord ((getCorrection raw isWord).map toLowerChar) = true) := by
  by_cases h0 : raw = []
  · subst h0
    exact Or.inl (getCorrectionGen_nil _ _)
  · by_cases h1 : isWord (raw.map toLowerChar) = true
    · exact Or.inl (getCorrectionGen_known h0 h1)
    · have h1f : isWord (raw.map toLowerChar) = false := Bool.eq_false_iff.mpr h1
      by_cases h2 : hitsGen candidatesFor (raw.map toLowerChar) isWord = []
      · exact Or.inl (getCorrectionGen_noHits h0 h1f h2)
      · right
        have heq : getCorrection raw isWord =
            preserveCase raw
              (chooseBest (raw.map toLowerChar)
                (hitsGen candidatesFor (raw.map toLowerChar) isWord)) :=
          getCorrectionGen_hits h0 h1f h2
        have hbestmem := @chooseBest_mem (raw.map toLowerChar) _ h2
        have hprops := mem_hitsGen.mp hbestmem
        have hfix : ∀ ch ∈ chooseBest (raw.map toLowerChar)
            (hitsGen candidatesFor (raw.map toLowerChar) isWord),
              toLowerChar ch = ch :=
          candidatesFor_chars (map_toLowerChar_fixed) _ hprops.1
        constructor
        · rw [heq]
          exact preserveCase_ne_nil hprops.2.1
        · rw [heq, preserveCase_map_toLower hprops.2.1 hfix]
          exact hprops.2.2

/-- Claim C1: for every non-empty `rawWord` and every oracle accepting the
lowercased word, `correct` returns `rawWord` unchanged, and it does so for
an arbitrary candidate generator, i.e. without consulting the generator. -/
theorem claim_known_word_unchanged (gen : List Char → List (List Char))
    (rawWord : List Char) (oracle : List Char → Bool) (h0 : rawWord ≠ [])
    (h1 : oracle (rawWord.map toLowerChar) = true) :
    getCorrectionGen gen rawWord oracle = rawWord ∧
      getCorrection rawWord oracle = rawWord :=
  ⟨getCorrectionGen_known h0 h1, getCorrectionGen_known h0 h1⟩

/-- Witness for C1 at `rawWord = "Hi"` with an oracle recognizing
`{"hi"}` and a candidate generator producing nothing. -/
theorem claim_known_word_unchanged_witness :
    getCorrection ("Hi".toList) hiOracle = "Hi".toList :=
  (claim_known_word_unchanged (fun _ => []) ("Hi".toList) hiOracle
    (by decide) (by decide)).2

/-- Claim C2: empty input is returned unchanged; if the hit list is empty
(in particular when the oracle rejects every string), `correct` returns the
input unchanged (and, being a total function, signals no error). -/
theorem claim_no_hits_unchanged (rawWord : List Char)
    (oracle : List Char → Bool) :
    (rawWord = [] → getCorrection rawWord oracle = rawWord) ∧
    (hitsFor (rawWord.map toLowerChar) oracle = [] →
      getCorrection rawWord oracle = rawWord) ∧
    ((∀ s, oracle s = false) → getCorrection rawWord oracle = rawWord) := by
  have key : hitsFor (rawWord.map toLowerChar) oracle = [] →
      getCorrection rawWord oracle = rawWord := by
    intro h2
    by_cases h0 : rawWord = []
    · subst h0
      exact getCorrectionGen_nil _ _
    · by_cases h1 : oracle (rawWord.map toLowerChar) = true
      · exact getCorrectionGen_known h0 h1
      · exact getCorrectionGen_noHits h0 (Bool.eq_false_iff.mpr h1) h2
  refine ⟨?_, key, ?_⟩
  · rintro rfl
    exact getCorrectionGen_nil _ _
  · intro hall
    apply key
    rw [hitsFor_eq, hitsGen]
    apply List.filter_eq_nil_iff.mpr
    intro a _
    simp [hall a]

/-- Witness for C2 with an oracle rejecting everything. -/
theorem claim_no_hits_unchanged_witness :
    getCorrection ("zz".toList) (fun _ => false) = "zz".toList :=
  (claim_no_hits_unchanged ("zz".toList) (fun _ => false)).2.2 (fun _ => rfl)

/-- Claim C3: `levenshtein` computes the classic Levenshtein edit
distance: there is a chain of `levenshtein a b` single-character edits
(insertions, deletions, substitutions) from `a` to `b`, and no shorter
chain exists; as a `Nat`-valued function it is non-negative and
deterministic. -/
theorem claim_levenshtein_classic (a b : List Char) :
    EditChain (levenshtein a b) a b ∧
      ∀ n, EditChain n a b → levenshtein a b ≤ n :=
  ⟨editChain_levenshtein a b, fun _ h => levenshtein_le_chain h⟩

/-- Witness for C3: on `a = "ab"`, `b = "b"` the one-deletion chain is
optimal. -/
theorem claim_levenshtein_classic_witness :
    EditChain (levenshtein ("ab".toList) ("b".toList)) ("ab".toList)
        ("b".toList) ∧
      levenshtein ("ab".toList) ("b".toList) ≤ 1 :=
  ⟨(claim_levenshtein_classic ("ab".toList) ("b".toList)).1,
    (claim_levenshtein_classic ("ab".toList) ("b".toList)).2 1
      (EditChain.step (EditStep.del [] 'a' ('b' :: [])) (EditChain.nil _))⟩

/-- Claim C4: `repeatVariants word` is exactly the set of strings obtained
by run-length-encoding `word` into maximal runs (`runsFrom` flattens back
to `word`, has positive run lengths, and adjacent runs carry distinct
characters) and choosing, independently for each run of length `> 1`,
run-length 1 or 2 (runs of length 1 are fixed) — the choice set
`combosSpec`; in particular `correct("coooool")` with oracle `{"cool"}`
returns `"cool"`. -/
theorem claim_repeat_variants :
    (∀ w v : List Char, v ∈ repeatVariants w ↔ v ∈ combosSpec (runsFrom w)) ∧
    (∀ w : List Char,
      ((runsFrom w).map (fun r => List.replicate r.2 r.1)).flatten = w) ∧
    (∀ w : List Char, ∀ r ∈ runsFrom w, 1 ≤ r.2) ∧
    (∀ w : List Char, List.Chain' (fun r s => r.1 ≠ s.1) (runsFrom w)) ∧
    getCorrection ("coooool".toList) coolOracle = "cool".toList := by
  refine ⟨fun _ _ => mem_repeatVariants, runsFrom_join, runsFrom_len_pos,
    runsFrom_chain, ?_⟩
  have hmem : "cool".toList ∈ candidatesFor ("coooool".toList.map toLowerChar) :=
    mem_candidatesFor.mpr (Or.inl (mem_repeatVariants.mpr (by decide)))
  have hh : hitsFor ("coooool".toList.map toLowerChar) coolOracle
      = ["cool".toList] :=
    hitsFor_singleton hmem (by decide) (fun w => by simp [coolOracle])
  rw [getCorrection_of_hits_singleton (by decide) (by decide) hh]
  decide

/-- Witness for C4: the run `('a', 2)` of `"aa"` has positive length. -/
theorem claim_repeat_variants_witness : 1 ≤ (('a', 2) : Char × Nat).2 :=
  claim_repeat_variants.2.2.1 ("aa".toList) ('a', 2) (by decide)

/-- Claim C5: whenever the hit list is non-empty, `correct` returns (after
case preservation) a hit of minimal Levenshtein distance to the normalized
token; among hits with that distance it is the first in discovery order
(witnessed by `find?` returning exactly that hit). -/
theorem claim_min_hit_selection (rawWord : List Char)
    (oracle : List Char → Bool) (h0 : rawWord ≠ [])
    (h1 : oracle (rawWord.map toLowerChar) = false)
    (h2 : hitsFor (rawWord.map toLowerChar) oracle ≠ []) :
    ∃ b, b ∈ hitsFor (rawWord.map toLowerChar) oracle ∧
      (∀ h ∈ hitsFor (rawWord.map toLowerChar) oracle,
        levenshtein (rawWord.map toLowerChar) b ≤
          levenshtein (rawWord.map toLowerChar) h) ∧
      (hitsFor (rawWord.map toLowerChar) oracle).find?
          (fun h => levenshtein (rawWord.map toLowerChar) h ==
            levenshtein (rawWord.map toLowerChar) b) = some b ∧
      getCorrection rawWord oracle = preserveCase rawWord b := by
  rcases hhits : hitsFor (rawWord.map toLowerChar) oracle with _ | ⟨hh, t⟩
  · exact absurd hhits h2
  · refine ⟨pick (rawWord.map toLowerChar) hh t, ?_, ?_, ?_, ?_⟩
    · exact pick_mem _ t hh
    · intro h hmem
      exact pick_min _ t hh h hmem
    · exact pick_find _ t hh
    · have heq := @getCorrectionGen_hits candidatesFor _ _ h0 h1 h2
      rw [getCorrection, heq, ← hitsFor_eq, hhits, chooseBest_cons]

/-- Witness for C5 at `rawWord = "ct"` with oracle `{"cat"}`. -/
theorem claim_min_hit_selection_witness :
    ∃ b, b ∈ hitsFor ("ct".toList.map toLowerChar) catOracle ∧
      (∀ h ∈ hitsFor ("ct".toList.map toLowerChar) catOracle,
        levenshtein ("ct".toList.map toLowerChar) b ≤
          levenshtein ("ct".toList.map toLowerChar) h) ∧
      (hitsFor ("ct".toList.map toLowerChar) catOracle).find?
          (fun h => levenshtein ("ct".toList.map toLowerChar) h ==
            levenshtein ("ct".toList.map toLowerChar) b) = some b ∧
      getCorrection ("ct".toList) catOracle = preserveCase ("ct".toList) b :=
  claim_min_hit_selection ("ct".toList) catOracle (by decide) (by decide)
    (by
      have hmem : "cat".toList ∈ candidatesFor ("ct".toList.map toLowerChar) :=
        mem_candidatesFor.mpr (Or.inr (Or.inr (Or.inl (by decide))))
      have hh : hitsFor ("ct".toList.map toLowerChar) catOracle
          = ["cat".toList] :=
        hitsFor_singleton hmem (by decide) (fun w => by simp [catOracle])
      rw [hh]
      simp)

/-- Claim C6: for every `original` and non-empty `corrected`,
`preserveCase` upper-cases everything when `original` equals its own
upper-cased form, else upper-cases only the first character of `corrected`
when the first character of `original` is upper-case (fixed by
upper-casing), and otherwise returns `corrected` unchanged. -/
theorem claim_preserve_case (original corrected : List Char)
    (hne : corrected ≠ []) :
    (original.map toUpperChar = original →
      preserveCase original corrected = corrected.map toUpperChar) ∧
    (∀ o rest, original = o :: rest → original.map toUpperChar ≠ original →
      toUpperChar o = o → ∀ c cs, corrected = c :: cs →
      preserveCase original corrected = toUpperChar c :: cs) ∧
    (∀ o rest, original = o :: rest → toUpperChar o ≠ o →
      preserveCase original corrected = corrected) := by
  refine ⟨?_, ?_, ?_⟩
  · intro hall
    rw [preserveCase.eq_def, if_neg hne, if_pos hall]
  · rintro o rest rfl hnall ho c cs rfl
    rw [preserveCase.eq_def, if_neg hne, if_neg hnall]
    simp only [if_pos ho]
  · rintro o rest rfl ho
    have hnall : (o :: rest).map toUpperChar ≠ o :: rest := by
      intro hall
      rw [List.map_cons] at hall
      exact ho (List.head_eq_of_cons_eq hall)
    rw [preserveCase.eq_def, if_neg hne, if_neg hnall]
    simp only [if_neg ho]

/-- Witness for C6: all-caps branch at `original = "HI"`,
`corrected = "ab"`. -/
theorem claim_preserve_case_witness :
    preserveCase ("HI".toList) ("ab".toList) = ("ab".toList).map toUpperChar :=
  (claim_preserve_case ("HI".toList) ("ab".toList) (by decide)).1 (by decide)

/-- Counterexample to C7 as stated: with oracle `{"a"}` and input
`"aaa"`, the run-collapse candidate `"a"` is a hit at Levenshtein
distance 2 (not 1), and `correct` returns `"a"`, a changed word whose
lowercase distance to the lowercase input is 2, not 1. -/
theorem claim_hit_distance_counterexample :
    ("a".toList ∈ hitsFor ("aaa".toList.map toLowerChar) aOracle) ∧
    levenshtein ("aaa".toList.map toLowerChar) ("a".toList) ≠ 1 ∧
    getCorrection ("aaa".toList) aOracle = "a".toList ∧
    getCorrection ("aaa".toList) aOracle ≠ "aaa".toList ∧
    levenshtein ((getCorrection ("aaa".toList) aOracle).map toLowerChar)
        ("aaa".toList.map toLowerChar) ≠ 1 := by
  have hmem : "a".toList ∈ candidatesFor ("aaa".toList.map toLowerChar) :=
    mem_candidatesFor.mpr (Or.inl (mem_repeatVariants.mpr (by decide)))
  have hh : hitsFor ("aaa".toList.map toLowerChar) aOracle = ["a".toList] :=
    hitsFor_singleton hmem (by decide) (fun w => by simp [aOracle])
  have hc : getCorrection ("aaa".toList) aOracle = "a".toList := by
    rw [getCorrection_of_hits_singleton (by decide) (by decide) hh]
    decide
  refine ⟨?_, by decide, hc, ?_, ?_⟩
  · rw [hh]
    exact List.mem_singleton_self _
  · rw [hc]
    decide
  · rw [hc]
    decide

/-- Amended C7: when the oracle rejects the normalized token, every hit
has Levenshtein distance at least 1 from it; hits produced by the
single-deletion, single-insertion and single-substitution passes have
distance exactly 1; run-collapse hits may exceed 1, so a changed result
is only guaranteed lowercase distance at least 1 from the lowercase
input. -/
theorem claim_hit_distance_amended (lower : List Char)
    (oracle : List Char → Bool) :
    (oracle lower = false →
      ∀ h ∈ hitsFor lower oracle, 1 ≤ levenshtein lower h) ∧
    (∀ c ∈ delCandidates lower ++ insCandidates lower ++ subCandidates lower,
      levenshtein lower c ≤ 1) ∧
    (oracle lower = false → ∀ h ∈ hitsFor lower oracle,
      h ∈ delCandidates lower ++ insCandidates lower ++ subCandidates lower →
      levenshtein lower h = 1) ∧
    (∀ rawWord, oracle (rawWord.map toLowerChar) = false →
      getCorrection rawWord oracle ≠ rawWord →
      1 ≤ levenshtein ((getCorrection rawWord oracle).map toLowerChar)
            (rawWord.map toLowerChar)) := by
  have hlow : ∀ h, oracle lower = false → h ∈ hitsFor lower oracle →
      1 ≤ levenshtein lower h := by
    intro h h1 hmem
    have hp := mem_hitsGen.mp hmem
    have hne : lower ≠ h := by
      intro heq
      rw [← heq] at hp
      rw [h1] at hp
      exact Bool.false_ne_true hp.2.2
    have hz : levenshtein lower h ≠ 0 := fun hz =>
      hne (levenshtein_eq_zero_iff.mp hz)
    omega
  have hone : ∀ c ∈ delCandidates lower ++ insCandidates lower
      ++ subCandidates lower, levenshtein lower c ≤ 1 := by
    intro c hc
    rcases List.mem_append.mp hc with hc | hc
    · rcases List.mem_append.mp hc with hc | hc
      · exact levenshtein_le_one_of_editStep (delCandidates_editStep c hc)
      · exact levenshtein_le_one_of_editStep (insCandidates_editStep c hc)
    · exact levenshtein_le_one_of_editStep (subCandidates_editStep c hc)
  refine ⟨fun h1 h hmem => hlow h h1 hmem, hone, ?_, ?_⟩
  · intro h1 h hmem hpass
    have := hlow h h1 hmem
    have := hone h hpass
    omega
  · intro rawWord h1 hchanged
    by_cases h0 : rawWord = []
    · subst h0
      exact absurd (getCorrectionGen_nil _ _) hchanged
    · by_cases h2 : hitsGen candidatesFor (rawWord.map toLowerChar) oracle = []
      · exact absurd (getCorrectionGen_noHits h0 h1 h2) hchanged
      · have heq := @getCorrectionGen_hits candidatesFor _ _ h0 h1 h2
        have hbestmem := @chooseBest_mem (rawWord.map toLowerChar) _ h2
        have hp := mem_hitsGen.mp hbestmem
        have hfix : ∀ ch ∈ chooseBest (rawWord.map toLowerChar)
            (hitsGen candidatesFor (rawWord.map toLowerChar) oracle),
              toLowerChar ch = ch :=
          candidatesFor_chars (map_toLowerChar_fixed) _ hp.1
        have hmap : (getCorrection rawWord oracle).map toLowerChar =
            chooseBest (rawWord.map toLowerChar)
              (hitsGen candidatesFor (rawWord.map toLowerChar) oracle) := by
          rw [getCorrection, heq]
          exact preserveCase_map_toLower hp.2.1 hfix
        rw [hmap]
        have hne : chooseBest (rawWord.map toLowerChar)
            (hitsGen candidatesFor (rawWord.map toLowerChar) oracle) ≠
              rawWord.map toLowerChar := by
          intro hbe
          rw [hbe, h1] at hp
          exact Bool.false_ne_true hp.2.2
        have hz : levenshtein
            (chooseBest (rawWord.map toLowerChar)
              (hitsGen candidatesFor (rawWord.map toLowerChar) oracle))
            (rawWord.map toLowerChar) ≠ 0 := fun hz =>
          hne (levenshtein_eq_zero_iff.mp hz)
        omega

/-- Witness for amended C7: the hit `"cat"` for token `"ct"` has distance
at least 1. -/
theorem claim_hit_distance_amended_witness :
    1 ≤ levenshtein ("ct".toList) ("cat".toList) :=
  (claim_hit_distance_amended ("ct".toList) catOracle).1 (by decide)
    ("cat".toList) (by decide)

/-- Claim C8: for non-empty input, `correct` returns a non-empty string,
and every collected hit is non-empty (empty candidates are skipped), so
the defensive empty-corrected branch of `preserveCase` is unreachable
from `correct`. -/
theorem claim_nonempty_result (rawWord : List Char)
    (oracle : List Char → Bool) (h0 : rawWord ≠ []) :
    getCorrection rawWord oracle ≠ [] ∧
      ∀ h ∈ hitsFor (rawWord.map toLowerChar) oracle, h ≠ [] := by
  constructor
  · rcases getCorrection_cases rawWord oracle with h | h
    · rw [h]
      exact h0
    · exact h.1
  · intro h hmem
    exact (mem_hitsGen.mp hmem).2.1

/-- Witness for C8 at `rawWord = "a"` with the empty oracle. -/
theorem claim_nonempty_result_witness :
    getCorrection ("a".toList) (fun _ => false) ≠ [] :=
  (claim_nonempty_result ("a".toList) (fun _ => false) (by decide)).1

/-- Claim C9: `correct` is idempotent for every input and every (pure,
stable — the model is a fixed function) oracle. -/
theorem claim_idempotent (rawWord : List Char) (oracle : List Char → Bool) :
    getCorrection (getCorrection rawWord oracle) oracle =
      getCorrection rawWord oracle := by
  rcases getCorrection_cases rawWord oracle with h | ⟨h1, h2⟩
  · rw [h]
    exact h
  · exact getCorrectionGen_known h1 h2

/-- Claim C10: with a supplied `hasWord` predicate, the stateful
`getCorrection` returns the pure result, leaves the cached dataset
unchanged, fires no background load, and its result is independent of the
cache state and of `fetch` availability. -/
theorem claim_state_independent (rawWord : List Char) (f : List Char → Bool)
    (st : ModuleState) (fetchAvailable : Bool) :
    getCorrectionM rawWord (some f) st fetchAvailable =
        (getCorrection rawWord f, st, false) ∧
      ∀ (st2 : ModuleState) (fa2 : Bool),
        (getCorrectionM rawWord (some f) st fetchAvailable).1 =
          (getCorrectionM rawWord (some f) st2 fa2).1 := by
  have key : ∀ (st' : ModuleState) (fa' : Bool),
      getCorrectionM rawWord (some f) st' fa' =
        (getCorrection rawWord f, st', false) := by
    intro st' fa'
    rw [getCorrectionM]
    by_cases h0 : rawWord = []
    · rw [if_pos h0, h0, getCorrection, getCorrectionGen_nil]
    · rw [if_neg h0]
      rfl
  refine ⟨key st fetchAvailable, ?_⟩
  intro st2 fa2
  rw [key st fetchAvailable, key st2 fa2]

end SpellChecker
